import Mathlib

set_option maxRecDepth 100000

/-!
Shallow embedding of the barcode-trimmer contamination filter
(src/barcode_trimmer_streamlit_app.py) and proofs about its behavior.

The repository's own code (adapter loading, the classify/partition loops of
`filter_reads_web` and `simple_filter_fallback`) is translated directly.
Two collaborators live outside the repository: BioPython (`Bio.Seq`,
`SeqIO`) and parasail; where a claim depends on them, their behavior is
modelled from the specification (each such definition says so in its doc
comment).
-/

namespace BarcodeTrimmer

/-- Python `str.strip`: remove leading and trailing whitespace. -/
def strip (s : String) : String :=
  ⟨((s.data.dropWhile Char.isWhitespace).reverse.dropWhile Char.isWhitespace).reverse⟩

/-- Python `str.upper`, character by character. -/
def upper (s : String) : String := ⟨s.data.map Char.toUpper⟩

/-- Helper for Python `str.split` on a single newline character. -/
def splitLinesAux (cur : List Char) : List Char → List (List Char)
  | [] => [cur.reverse]
  | c :: rest =>
    if c == '\n' then cur.reverse :: splitLinesAux [] rest
    else splitLinesAux (c :: cur) rest

/-- Python `content.split(chr(10))`. -/
def splitLines (s : String) : List String := (splitLinesAux [] s.data).map String.mk

/-- Python `line.startswith` applied to the FASTA header marker. -/
def startsWithGt (s : String) : Bool :=
  match s.data with
  | [] => false
  | c :: _ => c == '>'

/-- Python truthiness of a string: false exactly on the empty string. -/
def strEmpty (s : String) : Bool := s.data.isEmpty

/-- Concatenation of a list of strings. -/
def concatAll : List String → String
  | [] => ""
  | s :: rest => s ++ concatAll rest

/-- Does the pattern match at the very front of the list? -/
def startsW : List Char → List Char → Bool
  | [], _ => true
  | _ :: _, [] => false
  | a :: as, b :: bs => a == b && startsW as bs

/-- Python `pat in s` on strings: the pattern occurs contiguously somewhere. -/
def occursIn (pat : List Char) : List Char → Bool
  | [] => pat.isEmpty
  | c :: rest => startsW pat (c :: rest) || occursIn pat rest

/-- Modelled from the spec: the nucleotide complement maps A↔T and C↔G and
lets every other symbol pass through unchanged (the source delegates to
`Bio.Seq`, a library outside the repository). -/
def complChar (c : Char) : Char :=
  if c == 'A' then 'T'
  else if c == 'T' then 'A'
  else if c == 'C' then 'G'
  else if c == 'G' then 'C'
  else c

/-- Modelled from the spec: reverse complement = reverse of the
character-wise complement. -/
def reverse_complement (s : String) : String := ⟨(s.data.map complChar).reverse⟩

/-- Loop body of `load_adapters`: accumulate stripped sequence lines; on each
header line, and once more at end of input, a non-empty accumulated sequence
is flushed as the upper-cased forward adapter immediately followed by its
reverse complement. -/
def loadAdaptersLoop (currentSeq : String) : List String → List String
  | [] =>
    if strEmpty currentSeq then []
    else [upper currentSeq, reverse_complement (upper currentSeq)]
  | line :: rest =>
    let l := strip line
    if startsWithGt l then
      (if strEmpty currentSeq then []
       else [upper currentSeq, reverse_complement (upper currentSeq)]) ++
        loadAdaptersLoop "" rest
    else loadAdaptersLoop (currentSeq ++ l) rest

/-- `load_adapters` from the source: adapter sequences plus reverse
complements, upper-cased, in load order. -/
def load_adapters (content : String) : List String :=
  loadAdaptersLoop "" (splitLines (strip content))

/-- The raw record bodies seen by the same header/body scan as
`load_adapters`: one entry per record with non-empty accumulated sequence,
in input order (used to state how many adapters each record contributes). -/
def recordSeqsLoop (currentSeq : String) : List String → List String
  | [] => if strEmpty currentSeq then [] else [currentSeq]
  | line :: rest =>
    let l := strip line
    if startsWithGt l then
      (if strEmpty currentSeq then [] else [currentSeq]) ++ recordSeqsLoop "" rest
    else recordSeqsLoop (currentSeq ++ l) rest

/-- Record bodies of an adapter panel, in input order. -/
def recordSeqs (content : String) : List String :=
  recordSeqsLoop "" (splitLines (strip content))

/-- The fallback's own adapter parse (`simple_filter_fallback`, first
section): same header/body scan, but each record contributes only its
upper-cased forward sequence — no reverse complement. -/
def fallbackAdaptersLoop (currentSeq : String) : List String → List String
  | [] => if strEmpty currentSeq then [] else [upper currentSeq]
  | line :: rest =>
    let l := strip line
    if startsWithGt l then
      (if strEmpty currentSeq then [] else [upper currentSeq]) ++
        fallbackAdaptersLoop "" rest
    else fallbackAdaptersLoop (currentSeq ++ l) rest

/-- Adapter list used by `simple_filter_fallback`. -/
def fallbackAdapters (content : String) : List String :=
  fallbackAdaptersLoop "" (splitLines (strip content))

/-- Concatenation of all stripped lines of the stripped input (what the
header/body scan accumulates when no header line is ever seen). -/
def joinedTrimmedLines (content : String) : String :=
  concatAll ((splitLines (strip content)).map strip)

/-- The five scoring parameters received by the filter. -/
structure Params where
  matchS : Int
  mismatchS : Int
  gapOpen : Int
  gapExtend : Int
  minScore : Int
deriving DecidableEq

/-- Sentinel for impossible gap states at the dynamic-programming boundary. -/
def negInf : Int := -1073741824

/-- Modelled from the spec (§4.4): one row of the affine-gap local-alignment
dynamic program (the source calls `parasail.sw_scan_16`, a library outside
the repository).  Each cell carries `(H, F)`: the best local score of an
alignment ending at that cell, and the best score of one ending in a
read-side gap.  `hdiag`, `hleft`, `eleft` track the diagonal and same-row
neighbours while scanning a row left to right. -/
def swRowAux (ms mm go ge : Int) (xi : Char) :
    Int → Int → Int → List (Int × Int) → List Char → List (Int × Int)
  | _, _, _, _, [] => []
  | _, _, _, [], _ :: _ => []
  | hdiag, hleft, eleft, (hup, fup) :: prevRest, yj :: yRest =>
    let e := max (hleft - go) (eleft - ge)
    let f := max (hup - go) (fup - ge)
    let h := max (max 0 (hdiag + (if xi == yj then ms else mm))) (max e f)
    (h, f) :: swRowAux ms mm go ge xi hup h e prevRest yRest

/-- Modelled from the spec (§4.4): maximum-scoring local alignment with
affine gaps (a gap of length L costs `go + (L-1)*ge`); substitutions score
`ms` on equal symbols and `mm` otherwise; the empty alignment scores 0. -/
def swScore (ms mm go ge : Int) (x y : List Char) : Int :=
  let row0 := y.map (fun _ => ((0 : Int), negInf))
  let step := fun (acc : List (Int × Int) × Int) (xi : Char) =>
    let row := swRowAux ms mm go ge xi 0 0 negInf acc.1 y
    (row, row.foldl (fun b c => max b c.1) acc.2)
  (x.foldl step (row0, 0)).2

/-- Modelled from the spec: the score `filter_reads_web` requests from
parasail for one (read, adapter) pair under the run's parameters. -/
def parasailScore (p : Params) (rd adapter : String) : Int :=
  swScore p.matchS p.mismatchS p.gapOpen p.gapExtend rd.data adapter.data

/-- The adapter scan of `filter_reads_web`: walk the adapter list in load
order and stop at the first adapter whose score reaches the threshold,
returning that adapter (the source records only the resulting boolean). -/
def scanAdapters (score : String → Int) (minScore : Int) : List String → Option String
  | [] => none
  | a :: rest =>
    if score a ≥ minScore then some a else scanAdapters score minScore rest

/-- Per-read classification of `filter_reads_web`: upper-case the read
sequence, then scan the adapters; contaminated iff the scan stopped. -/
def readContaminated (score : String → String → Int) (minScore : Int)
    (adapters : List String) (rd : String) : Bool :=
  (scanAdapters (score (upper rd)) minScore adapters).isSome

/-- A parsed sequence record (identifier line and sequence). -/
structure SeqRec where
  id : String
  seq : String
deriving DecidableEq

/-- The partition loop of `filter_reads_web`: each record is routed to the
kept or the discarded partition, both kept in input order. -/
def partitionReads (score : String → String → Int) (minScore : Int)
    (adapters : List String) : List SeqRec → List SeqRec × List SeqRec
  | [] => ([], [])
  | r :: rest =>
    let kd := partitionReads score minScore adapters rest
    if readContaminated score minScore adapters r.seq then (kd.1, r :: kd.2)
    else (r :: kd.1, kd.2)

/-- Modelled from the spec (§4.2): FASTA parsing as performed by
`SeqIO.parse` (a library outside the repository): a record is a header line
followed by the concatenation of sequence lines until the next header; a
record with empty sequence is dropped.  The header line is kept verbatim as
the record id. -/
def seqioParseFastaLoop (header seqAcc : String) : List String → List SeqRec
  | [] =>
    if !(strEmpty header) && !(strEmpty seqAcc) then [⟨header, seqAcc⟩] else []
  | line :: rest =>
    let l := strip line
    if startsWithGt l then
      (if !(strEmpty header) && !(strEmpty seqAcc) then [⟨header, seqAcc⟩] else []) ++
        seqioParseFastaLoop l "" rest
    else seqioParseFastaLoop header (seqAcc ++ l) rest

/-- FASTA record stream for the full pipeline. -/
def seqioParseFasta (content : String) : List SeqRec :=
  seqioParseFastaLoop "" "" (splitLines (strip content))

/-- `filter_reads_web` on FASTA input with dependencies available: load the
adapter panel, parse the records, partition them by the scored scan, and
return with the partitions the counters that feed the log: total reads,
adapter pairs (`len(adapters) // 2`), kept count, discarded count. -/
def filter_reads_web_fasta (p : Params) (adapterContent readsContent : String) :
    List SeqRec × List SeqRec × Nat × Nat × Nat × Nat :=
  let adapters := load_adapters adapterContent
  let reads := seqioParseFasta readsContent
  let kd := partitionReads (parasailScore p) p.minScore adapters reads
  (kd.1, kd.2, reads.length, adapters.length / 2, kd.1.length, kd.2.length)

/-- The fallback's contamination check: some adapter is a literal substring
of the given (already upper-cased) sequence. -/
def fbContaminated (adapters : List String) (sq : String) : Bool :=
  adapters.any (fun a => occursIn a.data sq.data)

/-- Outcome of a fallback run: the two partitions (as output lines) and the
three counters. -/
structure FBRes where
  kept : List String
  disc : List String
  keptN : Nat
  discN : Nat
  processed : Nat
deriving DecidableEq

/-- The FASTQ loop of `simple_filter_fallback`: consume complete groups of 4
lines; the sequence line is stripped and upper-cased for the substring
check; a trailing group of fewer than 4 lines is ignored. -/
def fbFastqLoop (adapters : List String) : List String → FBRes
  | l1 :: l2 :: l3 :: l4 :: rest =>
    let r := fbFastqLoop adapters rest
    if fbContaminated adapters (upper (strip l2)) then
      ⟨r.kept, l1 :: l2 :: l3 :: l4 :: r.disc, r.keptN, r.discN + 1, r.processed + 1⟩
    else
      ⟨l1 :: l2 :: l3 :: l4 :: r.kept, r.disc, r.keptN + 1, r.discN, r.processed + 1⟩
  | _ => ⟨[], [], 0, 0, 0⟩

/-- Processing of one completed FASTA record in the fallback: the substring
check runs on the upper-cased accumulated sequence; the header and the
original-case sequence are routed as a block. -/
def fbProcessOne (adapters : List String) (header seqAcc : String) (r : FBRes) : FBRes :=
  if fbContaminated adapters (upper seqAcc) then
    ⟨r.kept, header :: seqAcc :: r.disc, r.keptN, r.discN + 1, r.processed + 1⟩
  else
    ⟨header :: seqAcc :: r.kept, r.disc, r.keptN + 1, r.discN, r.processed + 1⟩

/-- The FASTA loop of `simple_filter_fallback`: lines are stripped; a record
is processed when the next header arrives (or at end of input) provided both
the pending header and the accumulated sequence are non-empty. -/
def fbFastaLoop (adapters : List String) (header seqAcc : String) : List String → FBRes
  | [] =>
    if !(strEmpty header) && !(strEmpty seqAcc) then
      fbProcessOne adapters header seqAcc ⟨[], [], 0, 0, 0⟩
    else ⟨[], [], 0, 0, 0⟩
  | line :: rest =>
    let l := strip line
    if startsWithGt l then
      if !(strEmpty header) && !(strEmpty seqAcc) then
        fbProcessOne adapters header seqAcc (fbFastaLoop adapters l "" rest)
      else fbFastaLoop adapters l "" rest
    else fbFastaLoop adapters header (seqAcc ++ l) rest

/-- Input format selected from the filename extension in the source. -/
inductive Format where
  | fasta
  | fastq
deriving DecidableEq

/-- `simple_filter_fallback`: parse its own adapter panel (forward sequences
only), then run the substring classifier over FASTQ line groups or FASTA
records.  The scoring parameters are received but reach only the textual
log (which carries timestamps and is outside this model). -/
def simple_filter_fallback (_params : Params) (adapterContent readsContent : String)
    (fmt : Format) : FBRes :=
  let adapters := fallbackAdapters adapterContent
  let lines := splitLines (strip readsContent)
  match fmt with
  | Format.fastq => fbFastqLoop adapters lines
  | Format.fasta => fbFastaLoop adapters "" "" lines

/-- One complete 4-line FASTQ group as consumed by the fallback loop. -/
structure FastqGroup where
  idLine : String
  seqLine : String
  sepLine : String
  qualLine : String
deriving DecidableEq

/-- The complete 4-line groups of the input, in input order (the trailing
fewer-than-4 lines form no group). -/
def fastqGroups : List String → List FastqGroup
  | l1 :: l2 :: l3 :: l4 :: rest => ⟨l1, l2, l3, l4⟩ :: fastqGroups rest
  | _ => []

/-- Contamination check of one FASTQ group: the substring check on its
stripped, upper-cased sequence line. -/
def fqContam (adapters : List String) (g : FastqGroup) : Bool :=
  fbContaminated adapters (upper (strip g.seqLine))

/-- The four lines of a FASTQ group, as routed into a partition. -/
def fqLines (g : FastqGroup) : List String :=
  [g.idLine, g.seqLine, g.sepLine, g.qualLine]

/-- The (header, sequence) records the fallback FASTA loop processes, in
input order: same completion rule as the loop (flush on the next header or
at end of input, only when both header and body are non-empty). -/
def fastaRecords (header seqAcc : String) : List String → List (String × String)
  | [] =>
    if !(strEmpty header) && !(strEmpty seqAcc) then [(header, seqAcc)] else []
  | line :: rest =>
    let l := strip line
    if startsWithGt l then
      (if !(strEmpty header) && !(strEmpty seqAcc) then [(header, seqAcc)] else []) ++
        fastaRecords l "" rest
    else fastaRecords header (seqAcc ++ l) rest

/-- Contamination check of one FASTA record (upper-cased body). -/
def faContam (adapters : List String) (r : String × String) : Bool :=
  fbContaminated adapters (upper r.2)

/-- The two lines of a FASTA record, as routed into a partition. -/
def faLines (r : String × String) : List String := [r.1, r.2]

/-! ## Properties of the adapter scan and the partition loop -/

theorem scanAdapters_isSome_iff (f : String → Int) (m : Int) (l : List String) :
    (scanAdapters f m l).isSome = true ↔ ∃ a ∈ l, f a ≥ m := by
  induction l with
  | nil => simp [scanAdapters]
  | cons a rest ih =>
    by_cases h : f a ≥ m
    · constructor
      · intro _
        exact ⟨a, List.mem_cons_self _ _, h⟩
      · intro _
        simp only [scanAdapters, if_pos h, Option.isSome_some]
    · rw [show scanAdapters f m (a :: rest) = scanAdapters f m rest from by
        simp only [scanAdapters, if_neg h]]
      rw [ih]
      constructor
      · rintro ⟨b, hb, hfb⟩
        exact ⟨b, List.mem_cons_of_mem _ hb, hfb⟩
      · rintro ⟨b, hb, hfb⟩
        rcases List.mem_cons.mp hb with rfl | hb2
        · exact absurd hfb h
        · exact ⟨b, hb2, hfb⟩

theorem scanAdapters_some_spec (f : String → Int) (m : Int) :
    ∀ (l : List String) (a : String), scanAdapters f m l = some a →
      f a ≥ m ∧ ∃ l1 l2, l = l1 ++ a :: l2 ∧ ∀ b ∈ l1, ¬ f b ≥ m := by
  intro l
  induction l with
  | nil => intro a h; exact absurd h (by simp [scanAdapters])
  | cons x rest ih =>
    intro a h
    by_cases hx : f x ≥ m
    · simp only [scanAdapters, if_pos hx, Option.some.injEq] at h
      subst h
      exact ⟨hx, [], rest, rfl, by intro b hb; exact absurd hb (List.not_mem_nil b)⟩
    · simp only [scanAdapters, if_neg hx] at h
      obtain ⟨hfa, l1, l2, heq, hall⟩ := ih a h
      refine ⟨hfa, x :: l1, l2, by rw [heq, List.cons_append], ?_⟩
      intro b hb
      rcases List.mem_cons.mp hb with rfl | hb2
      · exact hx
      · exact hall b hb2

theorem scanAdapters_none_spec (f : String → Int) (m : Int) :
    ∀ l : List String, scanAdapters f m l = none → ∀ a ∈ l, ¬ f a ≥ m := by
  intro l
  induction l with
  | nil => intro _ a ha; exact absurd ha (List.not_mem_nil a)
  | cons x rest ih =>
    intro h a ha
    by_cases hx : f x ≥ m
    · simp only [scanAdapters, if_pos hx] at h
      exact Option.noConfusion h
    · simp only [scanAdapters, if_neg hx] at h
      rcases List.mem_cons.mp ha with rfl | ha2
      · exact hx
      · exact ih h a ha2

theorem partitionReads_fst (score : String → String → Int) (m : Int)
    (adapters : List String) :
    ∀ reads : List SeqRec, (partitionReads score m adapters reads).1 =
      reads.filter (fun r => ! readContaminated score m adapters r.seq) := by
  intro reads
  induction reads with
  | nil => rfl
  | cons r rest ih =>
    simp only [partitionReads]
    cases hc : readContaminated score m adapters r.seq <;>
      simp [List.filter_cons, hc, ih]

theorem partitionReads_snd (score : String → String → Int) (m : Int)
    (adapters : List String) :
    ∀ reads : List SeqRec, (partitionReads score m adapters reads).2 =
      reads.filter (fun r => readContaminated score m adapters r.seq) := by
  intro reads
  induction reads with
  | nil => rfl
  | cons r rest ih =>
    simp only [partitionReads]
    cases hc : readContaminated score m adapters r.seq <;>
      simp [List.filter_cons, hc, ih]

theorem filter_not_length_add {α : Type} (p : α → Bool) :
    ∀ l : List α,
      (l.filter (fun a => ! p a)).length + (l.filter p).length = l.length := by
  intro l
  induction l with
  | nil => rfl
  | cons a rest ih =>
    cases hp : p a <;> simp [List.filter_cons, hp] <;> omega

theorem filter_length_mono {α : Type} (p q : α → Bool) :
    ∀ l : List α, (∀ a ∈ l, p a = true → q a = true) →
      (l.filter p).length ≤ (l.filter q).length := by
  intro l
  induction l with
  | nil => intro _; exact Nat.le_refl 0
  | cons a rest ih =>
    intro h
    have hrest : ∀ x ∈ rest, p x = true → q x = true :=
      fun x hx => h x (List.mem_cons_of_mem _ hx)
    cases hp : p a with
    | true =>
      have hq := h a (List.mem_cons_self _ _) hp
      simpa [List.filter_cons, hp, hq] using Nat.succ_le_succ (ih hrest)
    | false =>
      cases hq : q a with
      | true =>
        simpa [List.filter_cons, hp, hq] using Nat.le_succ_of_le (ih hrest)
      | false =>
        simpa [List.filter_cons, hp, hq] using ih hrest

theorem readContaminated_mono (score : String → String → Int) (adapters : List String)
    (rd : String) (t1 t2 : Int) (h12 : t1 ≤ t2)
    (h : readContaminated score t2 adapters rd = true) :
    readContaminated score t1 adapters rd = true := by
  unfold readContaminated at h ⊢
  rw [scanAdapters_isSome_iff] at h ⊢
  obtain ⟨a, ha, hsc⟩ := h
  exact ⟨a, ha, le_trans h12 hsc⟩

/-! ## Properties of the fallback loops -/

theorem fbProcessOne_counts (ad : List String) (h s : String) (r : FBRes) :
    (fbProcessOne ad h s r).keptN + (fbProcessOne ad h s r).discN = r.keptN + r.discN + 1
    ∧ (fbProcessOne ad h s r).processed = r.processed + 1 := by
  unfold fbProcessOne
  split <;> exact ⟨by dsimp only; omega, rfl⟩

theorem fbFastqLoop_counts (ad : List String) :
    ∀ lines : List String,
      (fbFastqLoop ad lines).keptN + (fbFastqLoop ad lines).discN =
        (fbFastqLoop ad lines).processed
  | [] => rfl
  | [_] => rfl
  | [_, _] => rfl
  | [_, _, _] => rfl
  | l1 :: l2 :: l3 :: l4 :: rest => by
    have ih := fbFastqLoop_counts ad rest
    simp only [fbFastqLoop]
    split <;> simp <;> omega

theorem fbFastaLoop_counts (ad : List String) :
    ∀ (lines : List String) (h s : String),
      (fbFastaLoop ad h s lines).keptN + (fbFastaLoop ad h s lines).discN =
        (fbFastaLoop ad h s lines).processed
  | [], h, s => by
    simp only [fbFastaLoop]
    split
    · obtain ⟨h1, h2⟩ := fbProcessOne_counts ad h s ⟨[], [], 0, 0, 0⟩
      dsimp only at h1 h2
      omega
    · rfl
  | line :: rest, h, s => by
    have ih1 := fbFastaLoop_counts ad rest (strip line) ""
    have ih2 := fbFastaLoop_counts ad rest h (s ++ strip line)
    simp only [fbFastaLoop]
    split
    · split
      · obtain ⟨h1, h2⟩ := fbProcessOne_counts ad h s (fbFastaLoop ad (strip line) "" rest)
        omega
      · exact ih1
    · exact ih2

theorem fbFastqLoop_parts (ad : List String) :
    ∀ lines : List String,
      (fbFastqLoop ad lines).kept =
        ((fastqGroups lines).filter (fun g => ! fqContam ad g)).flatMap fqLines
      ∧ (fbFastqLoop ad lines).disc =
        ((fastqGroups lines).filter (fqContam ad)).flatMap fqLines
      ∧ (fbFastqLoop ad lines).keptN =
        ((fastqGroups lines).filter (fun g => ! fqContam ad g)).length
      ∧ (fbFastqLoop ad lines).discN =
        ((fastqGroups lines).filter (fqContam ad)).length
  | [] => ⟨rfl, rfl, rfl, rfl⟩
  | [_] => ⟨rfl, rfl, rfl, rfl⟩
  | [_, _] => ⟨rfl, rfl, rfl, rfl⟩
  | [_, _, _] => ⟨rfl, rfl, rfl, rfl⟩
  | l1 :: l2 :: l3 :: l4 :: rest => by
    obtain ⟨k, d, kn, dn⟩ := fbFastqLoop_parts ad rest
    cases hc : fbContaminated ad (upper (strip l2)) with
    | true =>
      refine ⟨?_, ?_, ?_, ?_⟩ <;>
        simp [fbFastqLoop, fastqGroups, List.filter_cons, fqContam, fqLines,
          hc, k, d, kn, dn]
    | false =>
      refine ⟨?_, ?_, ?_, ?_⟩ <;>
        simp [fbFastqLoop, fastqGroups, List.filter_cons, fqContam, fqLines,
          hc, k, d, kn, dn]

theorem fbFastaLoop_parts (ad : List String) :
    ∀ (lines : List String) (h s : String),
      (fbFastaLoop ad h s lines).kept =
        ((fastaRecords h s lines).filter (fun r => ! faContam ad r)).flatMap faLines
      ∧ (fbFastaLoop ad h s lines).disc =
        ((fastaRecords h s lines).filter (faContam ad)).flatMap faLines
      ∧ (fbFastaLoop ad h s lines).keptN =
        ((fastaRecords h s lines).filter (fun r => ! faContam ad r)).length
      ∧ (fbFastaLoop ad h s lines).discN =
        ((fastaRecords h s lines).filter (faContam ad)).length
  | [], h, s => by
    simp only [fbFastaLoop, fastaRecords]
    split
    · cases hc : fbContaminated ad (upper s) with
      | true =>
        refine ⟨?_, ?_, ?_, ?_⟩ <;>
          simp [fbProcessOne, faContam, faLines, List.filter_cons, hc]
      | false =>
        refine ⟨?_, ?_, ?_, ?_⟩ <;>
          simp [fbProcessOne, faContam, faLines, List.filter_cons, hc]
    · exact ⟨rfl, rfl, rfl, rfl⟩
  | line :: rest, h, s => by
    obtain ⟨k1, d1, kn1, dn1⟩ := fbFastaLoop_parts ad rest (strip line) ""
    obtain ⟨k2, d2, kn2, dn2⟩ := fbFastaLoop_parts ad rest h (s ++ strip line)
    simp only [fbFastaLoop, fastaRecords]
    split
    · split
      · cases hc : fbContaminated ad (upper s) with
        | true =>
          refine ⟨?_, ?_, ?_, ?_⟩ <;>
            simp [fbProcessOne, faContam, faLines, List.filter_cons, hc,
              k1, d1, kn1, dn1]
        | false =>
          refine ⟨?_, ?_, ?_, ?_⟩ <;>
            simp [fbProcessOne, faContam, faLines, List.filter_cons, hc,
              k1, d1, kn1, dn1]
      · simp only [List.nil_append]
        exact ⟨k1, d1, kn1, dn1⟩
    · exact ⟨k2, d2, kn2, dn2⟩

theorem fbContaminated_nil (sq : String) : fbContaminated [] sq = false := rfl

theorem partitionReads_no_adapters (score : String → String → Int) (m : Int) :
    ∀ reads : List SeqRec, partitionReads score m [] reads = (reads, []) := by
  intro reads
  induction reads with
  | nil => rfl
  | cons r rest ih => simp [partitionReads, readContaminated, scanAdapters, ih]

theorem fbFastqLoop_no_adapters :
    ∀ lines : List String,
      (fbFastqLoop [] lines).disc = [] ∧ (fbFastqLoop [] lines).discN = 0
      ∧ (fbFastqLoop [] lines).keptN = (fbFastqLoop [] lines).processed
  | [] => ⟨rfl, rfl, rfl⟩
  | [_] => ⟨rfl, rfl, rfl⟩
  | [_, _] => ⟨rfl, rfl, rfl⟩
  | [_, _, _] => ⟨rfl, rfl, rfl⟩
  | l1 :: l2 :: l3 :: l4 :: rest => by
    obtain ⟨ih1, ih2, ih3⟩ := fbFastqLoop_no_adapters rest
    simp only [fbFastqLoop, fbContaminated_nil, Bool.false_eq_true, if_false]
    exact ⟨ih1, ih2, by simp [ih3]⟩

theorem fbProcessOne_no_adapters (h s : String) (r : FBRes) :
    fbProcessOne [] h s r = ⟨h :: s :: r.kept, r.disc, r.keptN + 1, r.discN, r.processed + 1⟩ := by
  simp [fbProcessOne, fbContaminated_nil]

theorem fbFastaLoop_no_adapters :
    ∀ (lines : List String) (h s : String),
      (fbFastaLoop [] h s lines).disc = [] ∧ (fbFastaLoop [] h s lines).discN = 0
      ∧ (fbFastaLoop [] h s lines).keptN = (fbFastaLoop [] h s lines).processed
  | [], h, s => by
    simp only [fbFastaLoop]
    split
    · rw [fbProcessOne_no_adapters]
      exact ⟨rfl, rfl, rfl⟩
    · exact ⟨rfl, rfl, rfl⟩
  | line :: rest, h, s => by
    have ih1 := fbFastaLoop_no_adapters rest (strip line) ""
    have ih2 := fbFastaLoop_no_adapters rest h (s ++ strip line)
    simp only [fbFastaLoop]
    split
    · split
      · rw [fbProcessOne_no_adapters]
        exact ⟨ih1.1, ih1.2.1, by simp [ih1.2.2]⟩
      · exact ih1
    · exact ih2

theorem take_add_four {α : Type} (n : Nat) (l1 l2 l3 l4 : α) (rest : List α) :
    (l1 :: l2 :: l3 :: l4 :: rest).take (n + 4) = l1 :: l2 :: l3 :: l4 :: rest.take n := rfl

theorem fbFastqLoop_short (ad : List String) :
    ∀ lines : List String, lines.length < 4 → fbFastqLoop ad lines = ⟨[], [], 0, 0, 0⟩
  | [], _ => rfl
  | [_], _ => rfl
  | [_, _], _ => rfl
  | [_, _, _], _ => rfl
  | _ :: _ :: _ :: _ :: _, h => absurd h (by simp [List.length_cons])

theorem fbFastqLoop_processed (ad : List String) :
    ∀ lines : List String, (fbFastqLoop ad lines).processed = lines.length / 4
  | [] => rfl
  | [_] => by rw [fbFastqLoop_short ad _ (by simp)]; simp
  | [_, _] => by rw [fbFastqLoop_short ad _ (by simp)]; simp
  | [_, _, _] => by rw [fbFastqLoop_short ad _ (by simp)]; simp
  | l1 :: l2 :: l3 :: l4 :: rest => by
    have ih := fbFastqLoop_processed ad rest
    simp only [fbFastqLoop, List.length_cons]
    split <;> simp <;> omega

theorem fbFastqLoop_drop_tail (ad : List String) :
    ∀ lines : List String,
      fbFastqLoop ad lines = fbFastqLoop ad (lines.take (4 * (lines.length / 4)))
  | [] => rfl
  | [x] => by
    have h0 : 4 * (([x] : List String).length / 4) = 0 := by simp
    rw [h0, List.take_zero, fbFastqLoop_short ad [x] (by simp)]
    rfl
  | [x, y] => by
    have h0 : 4 * (([x, y] : List String).length / 4) = 0 := by simp
    rw [h0, List.take_zero, fbFastqLoop_short ad [x, y] (by simp)]
    rfl
  | [x, y, z] => by
    have h0 : 4 * (([x, y, z] : List String).length / 4) = 0 := by simp
    rw [h0, List.take_zero, fbFastqLoop_short ad [x, y, z] (by simp)]
    rfl
  | l1 :: l2 :: l3 :: l4 :: rest => by
    have ih := fbFastqLoop_drop_tail ad rest
    have h4 : 4 * ((l1 :: l2 :: l3 :: l4 :: rest).length / 4) = 4 * (rest.length / 4) + 4 := by
      simp only [List.length_cons]
      omega
    rw [h4, take_add_four]
    simp only [fbFastqLoop]
    rw [← ih]

/-! ## String facts and properties of the adapter loaders -/

theorem str_append_assoc (a b c : String) : a ++ b ++ c = a ++ (b ++ c) := by
  cases a with | mk la =>
  cases b with | mk lb =>
  cases c with | mk lc =>
  exact congrArg String.mk (List.append_assoc la lb lc)

theorem str_nil_append (s : String) : "" ++ s = s := by
  cases s with | mk l => rfl

theorem str_append_nil (s : String) : s ++ "" = s := by
  cases s with | mk l => exact congrArg String.mk (List.append_nil l)

theorem loadAdaptersLoop_flatten :
    ∀ (lines : List String) (cur : String),
      loadAdaptersLoop cur lines =
        (recordSeqsLoop cur lines).flatMap
          (fun s => [upper s, reverse_complement (upper s)])
  | [], cur => by
    simp only [loadAdaptersLoop, recordSeqsLoop]
    split <;> simp
  | line :: rest, cur => by
    have ih1 := loadAdaptersLoop_flatten rest ""
    have ih2 := loadAdaptersLoop_flatten rest (cur ++ strip line)
    simp only [loadAdaptersLoop, recordSeqsLoop]
    split
    · split <;> simp [ih1]
    · exact ih2

theorem bind_pair_length :
    ∀ L : List String,
      (L.flatMap (fun s => [upper s, reverse_complement (upper s)])).length = 2 * L.length := by
  intro L
  induction L with
  | nil => rfl
  | cons a rest ih => simp [ih]; omega

theorem loadAdaptersLoop_no_header :
    ∀ (lines : List String) (cur : String),
      (∀ l ∈ lines, startsWithGt (strip l) = false) →
      loadAdaptersLoop cur lines =
        (if strEmpty (cur ++ concatAll (lines.map strip)) then []
         else [upper (cur ++ concatAll (lines.map strip)),
               reverse_complement (upper (cur ++ concatAll (lines.map strip)))])
  | [], cur => by
    intro _
    simp only [loadAdaptersLoop, List.map_nil, concatAll, str_append_nil]
  | line :: rest, cur => by
    intro h
    have hl : startsWithGt (strip line) = false := h line (List.mem_cons_self _ _)
    have ih := loadAdaptersLoop_no_header rest (cur ++ strip line)
      (fun l hl2 => h l (List.mem_cons_of_mem _ hl2))
    simp only [loadAdaptersLoop, hl, Bool.false_eq_true, if_false]
    rw [ih, List.map_cons]
    simp only [concatAll, str_append_assoc]

theorem fallbackAdaptersLoop_no_header :
    ∀ (lines : List String) (cur : String),
      (∀ l ∈ lines, startsWithGt (strip l) = false) →
      fallbackAdaptersLoop cur lines =
        (if strEmpty (cur ++ concatAll (lines.map strip)) then []
         else [upper (cur ++ concatAll (lines.map strip))])
  | [], cur => by
    intro _
    simp only [fallbackAdaptersLoop, List.map_nil, concatAll, str_append_nil]
  | line :: rest, cur => by
    intro h
    have hl : startsWithGt (strip line) = false := h line (List.mem_cons_self _ _)
    have ih := fallbackAdaptersLoop_no_header rest (cur ++ strip line)
      (fun l hl2 => h l (List.mem_cons_of_mem _ hl2))
    simp only [fallbackAdaptersLoop, hl, Bool.false_eq_true, if_false]
    rw [ih, List.map_cons]
    simp only [concatAll, str_append_assoc]

/-! ## Correctness of the substring search -/

theorem startsW_iff :
    ∀ pat s : List Char, startsW pat s = true ↔ ∃ t, s = pat ++ t
  | [], s => by
    simp only [startsW, List.nil_append, true_iff]
    exact ⟨s, rfl⟩
  | a :: as, [] => by
    simp only [startsW, Bool.false_eq_true, false_iff]
    rintro ⟨t, ht⟩
    exact List.noConfusion ht
  | a :: as, b :: bs => by
    simp only [startsW, Bool.and_eq_true, beq_iff_eq]
    rw [startsW_iff as bs]
    constructor
    · rintro ⟨rfl, t, rfl⟩
      exact ⟨t, rfl⟩
    · rintro ⟨t, ht⟩
      rw [List.cons_append] at ht
      injection ht with h1 h2
      exact ⟨h1.symm, t, h2⟩

theorem occursIn_iff (pat : List Char) :
    ∀ s : List Char, occursIn pat s = true ↔ ∃ u v, s = u ++ pat ++ v
  | [] => by
    cases pat with
    | nil =>
      simp only [occursIn, List.isEmpty_nil, true_iff]
      exact ⟨[], [], rfl⟩
    | cons a as =>
      simp only [occursIn, List.isEmpty_cons, Bool.false_eq_true, false_iff]
      rintro ⟨u, v, huv⟩
      rcases List.append_eq_nil.mp huv.symm with ⟨h1, -⟩
      rcases List.append_eq_nil.mp h1 with ⟨-, h3⟩
      exact List.noConfusion h3
  | c :: rest => by
    simp only [occursIn, Bool.or_eq_true]
    rw [startsW_iff pat (c :: rest), occursIn_iff pat rest]
    constructor
    · rintro (⟨t, ht⟩ | ⟨u, v, huv⟩)
      · exact ⟨[], t, by simpa using ht⟩
      · exact ⟨c :: u, v, by simp [huv]⟩
    · rintro ⟨u, v, huv⟩
      cases u with
      | nil =>
        left
        exact ⟨v, by simpa using huv⟩
      | cons x u2 =>
        right
        rw [List.cons_append, List.cons_append] at huv
        injection huv with h1 h2
        exact ⟨u2, v, h2⟩

/-! ## Reverse-complement facts -/

theorem complChar_invol (c : Char)
    (h : c = 'A' ∨ c = 'C' ∨ c = 'G' ∨ c = 'T') : complChar (complChar c) = c := by
  rcases h with rfl | rfl | rfl | rfl <;> rfl

theorem map_id_of_mem {g : Char → Char} :
    ∀ l : List Char, (∀ c ∈ l, g c = c) → l.map g = l
  | [], _ => rfl
  | c :: rest, h => by
    rw [List.map_cons, h c (List.mem_cons_self _ _),
      map_id_of_mem rest (fun x hx => h x (List.mem_cons_of_mem _ hx))]

/-! ## The claims -/

/-- C1: a read is classified contaminated iff at least one adapter scores at
least `min_score` against the upper-cased read; the scan visits adapters in
load order and stops at the first adapter crossing the threshold (every
earlier adapter scored below it); if no adapter reaches the threshold the
read is clean. -/
theorem spec_C1 (score : String → String → Int) (minScore : Int)
    (adapters : List String) (rd : String) :
    (readContaminated score minScore adapters rd = true ↔
      ∃ a ∈ adapters, score (upper rd) a ≥ minScore)
    ∧ (∀ a, scanAdapters (score (upper rd)) minScore adapters = some a →
        score (upper rd) a ≥ minScore ∧
          ∃ l1 l2, adapters = l1 ++ a :: l2 ∧ ∀ b ∈ l1, ¬ score (upper rd) b ≥ minScore)
    ∧ (scanAdapters (score (upper rd)) minScore adapters = none →
        ∀ a ∈ adapters, ¬ score (upper rd) a ≥ minScore) :=
  ⟨scanAdapters_isSome_iff _ _ _,
    fun a h => scanAdapters_some_spec _ _ _ a h,
    scanAdapters_none_spec _ _ _⟩

/-- Witness for C1 at a concrete scan. -/
theorem spec_C1_witness :
    (5 : Int) ≥ 3 ∧
      ∃ l1 l2, ["X"] = l1 ++ "X" :: l2 ∧ ∀ b ∈ l1, ¬ (5 : Int) ≥ 3 :=
  (spec_C1 (fun _ _ => 5) 3 ["X"] "acgt").2.1 "X" (by decide)

/-- C2: every processed read is routed to exactly one partition and order
within each partition equals input order, in full mode and in both fallback
modes: the full-mode kept/discarded partitions are the complementary filters
of the parsed input, the fallback partitions are the concatenations of the
complementary filters of the processed FASTQ groups / FASTA records in input
order, and kept + discarded = total processed everywhere. -/
theorem spec_C2 (score : String → String → Int) (m : Int) (adapters : List String)
    (reads : List SeqRec) (fadapters : List String) (lines : List String)
    (h s : String) :
    (partitionReads score m adapters reads).1.length +
      (partitionReads score m adapters reads).2.length = reads.length
    ∧ (partitionReads score m adapters reads).1 =
        reads.filter (fun r => ! readContaminated score m adapters r.seq)
    ∧ (partitionReads score m adapters reads).2 =
        reads.filter (fun r => readContaminated score m adapters r.seq)
    ∧ (fbFastqLoop fadapters lines).keptN + (fbFastqLoop fadapters lines).discN =
        (fbFastqLoop fadapters lines).processed
    ∧ (fbFastaLoop fadapters h s lines).keptN + (fbFastaLoop fadapters h s lines).discN =
        (fbFastaLoop fadapters h s lines).processed
    ∧ (fbFastqLoop fadapters lines).kept =
        ((fastqGroups lines).filter (fun g => ! fqContam fadapters g)).flatMap fqLines
    ∧ (fbFastqLoop fadapters lines).disc =
        ((fastqGroups lines).filter (fqContam fadapters)).flatMap fqLines
    ∧ (fbFastqLoop fadapters lines).keptN =
        ((fastqGroups lines).filter (fun g => ! fqContam fadapters g)).length
    ∧ (fbFastqLoop fadapters lines).discN =
        ((fastqGroups lines).filter (fqContam fadapters)).length
    ∧ (fbFastaLoop fadapters h s lines).kept =
        ((fastaRecords h s lines).filter (fun r => ! faContam fadapters r)).flatMap faLines
    ∧ (fbFastaLoop fadapters h s lines).disc =
        ((fastaRecords h s lines).filter (faContam fadapters)).flatMap faLines
    ∧ (fbFastaLoop fadapters h s lines).keptN =
        ((fastaRecords h s lines).filter (fun r => ! faContam fadapters r)).length
    ∧ (fbFastaLoop fadapters h s lines).discN =
        ((fastaRecords h s lines).filter (faContam fadapters)).length := by
  obtain ⟨qk, qd, qkn, qdn⟩ := fbFastqLoop_parts fadapters lines
  obtain ⟨ak, adk, akn, adn⟩ := fbFastaLoop_parts fadapters lines h s
  refine ⟨?_, partitionReads_fst score m adapters reads,
    partitionReads_snd score m adapters reads,
    fbFastqLoop_counts fadapters lines, fbFastaLoop_counts fadapters lines h s,
    qk, qd, qkn, qdn, ak, adk, akn, adn⟩
  rw [partitionReads_fst, partitionReads_snd]
  exact filter_not_length_add (fun r => readContaminated score m adapters r.seq) reads

/-- C3: on the concrete run of the spec's example scenario the classifier
discards r1 (its alignment score against ACGTACGT is 16 ≥ 10), keeps r2,
and reports total=2, adapter pairs=1, kept=1, discarded=1. -/
theorem spec_C3 :
    filter_reads_web_fasta ⟨2, -1, 5, 1, 10⟩ ">A1\nACGTACGT"
        ">r1\nACGTACGTTTTT\n>r2\nGGGGGGGGGG" =
      ([⟨">r2", "GGGGGGGGGG"⟩], [⟨">r1", "ACGTACGTTTTT"⟩], 2, 1, 1, 1)
    ∧ parasailScore ⟨2, -1, 5, 1, 10⟩ (upper "ACGTACGTTTTT") "ACGTACGT" = 16
    ∧ ((16 : Int) ≥ 10) := by
  refine ⟨?_, ?_, ?_⟩ <;> decide

/-- C4 counterexample: the claim says the fallback classifies contaminated
iff some adapter of the Adapter-Loader panel (forward sequences AND reverse
complements) is a substring of the upper-cased read; on panel `>A` with
sequence AACC and read GGTT (the reverse complement) the fallback says
clean while the claimed criterion holds. -/
theorem spec_C4_counterexample :
    ¬ ((fbContaminated (fallbackAdapters ">A\nAACC") (upper "GGTT") = true) ↔
      ∃ a ∈ load_adapters ">A\nAACC", occursIn a.data (upper "GGTT").data = true) := by
  decide

/-- C4 amended: in fallback mode a read is classified contaminated iff some
adapter of the fallback's own panel (forward sequences only, no reverse
complements) is a literal substring of the upper-cased read sequence, and
the scoring parameters have no effect on the result. -/
theorem spec_C4_amended (adapters : List String) (sq : String) (p1 p2 : Params)
    (adapterContent readsContent : String) (fmt : Format) :
    (fbContaminated adapters sq = true ↔
      ∃ a ∈ adapters, ∃ u v, sq.data = u ++ a.data ++ v)
    ∧ simple_filter_fallback p1 adapterContent readsContent fmt =
        simple_filter_fallback p2 adapterContent readsContent fmt := by
  constructor
  · rw [fbContaminated, List.any_eq_true]
    constructor
    · rintro ⟨a, ha, hocc⟩
      exact ⟨a, ha, (occursIn_iff a.data sq.data).mp hocc⟩
    · rintro ⟨a, ha, hsub⟩
      exact ⟨a, ha, (occursIn_iff a.data sq.data).mpr hsub⟩
  · rfl

/-- C5: `load_adapters` emits, for each record body in input order, the
upper-cased forward sequence immediately followed by its reverse complement;
hence it returns exactly 2*N adapters for N records with non-empty sequence
(empty-sequence records contribute nothing, since `recordSeqs` collects only
non-empty bodies). -/
theorem spec_C5 (content : String) :
    load_adapters content =
      (recordSeqs content).flatMap (fun s => [upper s, reverse_complement (upper s)])
    ∧ (load_adapters content).length = 2 * (recordSeqs content).length := by
  constructor
  · exact loadAdaptersLoop_flatten (splitLines (strip content)) ""
  · rw [load_adapters, loadAdaptersLoop_flatten (splitLines (strip content)) ""]
    exact bind_pair_length _

/-- C6: for a fixed scoring function, adapter panel and read set, raising
the threshold never increases the discarded count. -/
theorem spec_C6 (score : String → String → Int) (adapters : List String)
    (reads : List SeqRec) (t1 t2 : Int) (h : t1 ≤ t2) :
    (partitionReads score t2 adapters reads).2.length ≤
      (partitionReads score t1 adapters reads).2.length := by
  rw [partitionReads_snd, partitionReads_snd]
  exact filter_length_mono _ _ reads
    (fun r _ hr => readContaminated_mono score adapters r.seq t1 t2 h hr)

/-- Witness for C6 at concrete thresholds 0 ≤ 1. -/
theorem spec_C6_witness :
    (partitionReads (fun _ _ => 0) 1 ["A"] [⟨"r", "AC"⟩]).2.length ≤
      (partitionReads (fun _ _ => 0) 0 ["A"] [⟨"r", "AC"⟩]).2.length :=
  spec_C6 (fun _ _ => 0) ["A"] [⟨"r", "AC"⟩] 0 1 (by decide)

/-- C7: with an empty adapter set no read is ever contaminated: the full
classifier keeps every read and discards none, and both fallback loops
report zero discarded and keep every processed read. -/
theorem spec_C7 (score : String → String → Int) (m : Int) (reads : List SeqRec)
    (lines : List String) (h s : String) :
    partitionReads score m [] reads = (reads, [])
    ∧ (fbFastqLoop [] lines).disc = [] ∧ (fbFastqLoop [] lines).discN = 0
    ∧ (fbFastqLoop [] lines).keptN = (fbFastqLoop [] lines).processed
    ∧ (fbFastaLoop [] h s lines).disc = [] ∧ (fbFastaLoop [] h s lines).discN = 0
    ∧ (fbFastaLoop [] h s lines).keptN = (fbFastaLoop [] h s lines).processed := by
  obtain ⟨q1, q2, q3⟩ := fbFastqLoop_no_adapters lines
  obtain ⟨a1, a2, a3⟩ := fbFastaLoop_no_adapters lines h s
  exact ⟨partitionReads_no_adapters score m reads, q1, q2, q3, a1, a2, a3⟩

/-- C8: the fallback FASTQ parse processes exactly `length / 4` complete
line groups; a truncated trailing group (fewer than 4 lines) is silently
dropped: the whole result equals the result on the input truncated to its
complete groups, so the dropped lines appear in no partition and no count. -/
theorem spec_C8 (adapters : List String) (lines : List String) :
    (fbFastqLoop adapters lines).processed = lines.length / 4
    ∧ fbFastqLoop adapters lines =
        fbFastqLoop adapters (lines.take (4 * (lines.length / 4))) :=
  ⟨fbFastqLoop_processed adapters lines, fbFastqLoop_drop_tail adapters lines⟩

/-- C9: the reverse complement used by the adapter loader is an involution
on sequences over the alphabet {A,C,G,T}. -/
theorem spec_C9 (s : String)
    (h : ∀ c ∈ s.data, c = 'A' ∨ c = 'C' ∨ c = 'G' ∨ c = 'T') :
    reverse_complement (reverse_complement s) = s := by
  cases s with | mk l =>
  have key : (((l.map complChar).reverse).map complChar).reverse = l := by
    rw [show ((l.map complChar).reverse).map complChar =
        ((l.map complChar).map complChar).reverse from List.map_reverse _ _,
      List.reverse_reverse, List.map_map]
    exact map_id_of_mem l (fun c hc => complChar_invol c (h c hc))
  exact congrArg String.mk key

/-- Witness for C9 on the concrete sequence ACGT. -/
theorem spec_C9_witness :
    reverse_complement (reverse_complement "ACGT") = "ACGT" :=
  spec_C9 "ACGT" (by decide)

/-- C10: on adapter text with no header line but at least one non-empty
line, `load_adapters` treats the concatenation of all stripped lines as a
single record and returns exactly the upper-cased concatenation and its
reverse complement (2 adapters), while the fallback's own parser returns
only the upper-cased forward concatenation (1 adapter). -/
theorem spec_C10 (content : String)
    (h1 : ∀ l ∈ splitLines (strip content), startsWithGt (strip l) = false)
    (h2 : strEmpty (joinedTrimmedLines content) = false) :
    load_adapters content =
      [upper (joinedTrimmedLines content),
        reverse_complement (upper (joinedTrimmedLines content))]
    ∧ (load_adapters content).length = 2
    ∧ fallbackAdapters content = [upper (joinedTrimmedLines content)]
    ∧ (fallbackAdapters content).length = 1 := by
  have hL := loadAdaptersLoop_no_header (splitLines (strip content)) "" h1
  have hF := fallbackAdaptersLoop_no_header (splitLines (strip content)) "" h1
  rw [str_nil_append] at hL hF
  have hj : concatAll ((splitLines (strip content)).map strip) = joinedTrimmedLines content := rfl
  rw [hj] at hL hF
  rw [load_adapters, fallbackAdapters] at *
  rw [hL, hF, h2]
  exact ⟨by simp, by simp, by simp, by simp⟩

/-- Witness for C10 on the header-less adapter text consisting of the two
lines ACGT and TT. -/
theorem spec_C10_witness :
    load_adapters "ACGT\nTT" =
      [upper (joinedTrimmedLines "ACGT\nTT"),
        reverse_complement (upper (joinedTrimmedLines "ACGT\nTT"))]
    ∧ (load_adapters "ACGT\nTT").length = 2
    ∧ fallbackAdapters "ACGT\nTT" = [upper (joinedTrimmedLines "ACGT\nTT")]
    ∧ (fallbackAdapters "ACGT\nTT").length = 1 :=
  spec_C10 "ACGT\nTT" (by decide) (by decide)

end BarcodeTrimmer
